import Mathlib

/-!
# Verification of the distributary dataflow operators against their specification

This file gives a shallow embedding, in Lean, of the parts of the
distributary engine that the specification talks about:

* the two-way join operator (`src/ops/join.rs`),
* the latest-per-group operator (`src/ops/latest.rs`),
* the union operator's construction check (`src/ops/union.rs`),
* the write-side of the buffered state store (`src/backlog/mod.rs`),
* the materialization planner's index assignment and the replay-path
  segmentation of the migration code (`src/flow/migrate/materialization.rs`).

Pure Rust functions become Lean functions; the hash maps that only serve as
finite association containers become association lists; machine integers
become `Nat`/`Int` (no arithmetic in the modelled code ever overflows in the
scenarios considered).  Rust panics (`unimplemented!`, out-of-bounds
indexing, asserts) are modelled by explicit error results where a claim is
about them.

The record/query primitives (`query::DataType`, `query::Query`, the
`shortcut` condition type, and the `find` method of a materialized view)
live outside the `src/` tree of this snapshot; they are modelled from the
specification's §3 and §6 where noted.
-/

namespace Distributary

/-- The value type of the engine.  Modelled from the spec: §3 "a tagged sum
of {integer, text, timestamp, null}"; the timestamp variant is an integer
and is collapsed into `int` here, since none of the verified code paths
distinguish them. -/
inductive DataType
  | none
  | int (i : Int)
  | text (s : String)
  deriving DecidableEq, Repr

/-- A row of a view: an ordered tuple of values (`Vec<DataType>`). -/
abbrev Row := List DataType

/-- Indexing a row, `r[i]` in Rust.  The Rust code never indexes out of
bounds on the verified paths; out-of-range access is totalized to `none`. -/
def rowGet (r : Row) (i : Nat) : DataType :=
  (r.get? i).getD DataType.none

/-- `shortcut::Value`: either a literal or a column reference. -/
inductive Value
  | const (d : DataType)
  | column (i : Nat)
  deriving DecidableEq, Repr

/-- `shortcut::Comparison` as used by the join: equality against a value. -/
inductive Comparison
  | equal (v : Value)
  deriving DecidableEq, Repr

/-- `shortcut::Condition`: a comparison applied to one column. -/
structure Condition where
  column : Nat
  cmp : Comparison
  deriving DecidableEq, Repr

/-- Resolve a `shortcut::Value` against a row. -/
def Value.resolve (v : Value) (r : Row) : DataType :=
  match v with
  | .const d => d
  | .column i => rowGet r i

/-- Whether a row satisfies one condition. -/
def condHolds (r : Row) (c : Condition) : Bool :=
  match c.cmp with
  | .equal v => rowGet r c.column == v.resolve r

/-- `query::Query`: a projection mask plus conjunctive conditions.
Modelled from the spec: §6 "Query = { projection: bool[ncols],
conditions: [{column, cmp, value}] }"; the `query` crate itself is not
under `src/`. -/
structure Query where
  select : List Bool
  having : List Condition
  deriving DecidableEq, Repr

/-- Project a row through a selection mask (keep the columns marked
`true`). -/
def project (select : List Bool) (r : Row) : Row :=
  (r.zip select).filterMap (fun p => if p.2 then some p.1 else Option.none)

/-- `Query::feed`: if the row passes every condition, return it projected
through the mask; otherwise drop it.  Modelled from the spec (§6): the
query is a conjunction, and the projection mask is applied to results. -/
def Query.feed (q : Query) (r : Row) : Option Row :=
  if q.having.all (condHolds r) then some (project q.select r) else Option.none

/-- `View::find` on a materialized view, whose backing state is the list of
rows it currently holds together with their timestamps.  Modelled from the
spec: §4.1/'§6 `reader(optional_query)` reads from a materialized view;
with no query every row is returned, otherwise each row is fed through the
query.  (The view plumbing is not under `src/`.) -/
def find (st : List (Row × Int)) (q : Option Query) : List (Row × Int) :=
  match q with
  | Option.none => st
  | some q => st.filterMap (fun p => (q.feed p.1).map (fun r => (r, p.2)))

end Distributary

namespace Distributary

/-! ## The union operator's construction check (`src/ops/union.rs`) -/

/-- Outcome of `Union::new`'s per-ancestor emit-list scan: success, a panic
from indexing `&emit[0]` on an empty list, or the `unimplemented!()` abort
hit when an element is smaller than its predecessor. -/
inductive UnionCheck
  | ok
  | panicked
  | unimplemented
  deriving DecidableEq, Repr

/-- The inner loop of `Union::new`: `last` starts at `emit[0]`, and every
element (including the first, compared against itself) must not be smaller
than `last`. -/
def scanEmit (last : Nat) : List Nat → Bool
  | [] => true
  | i :: rest => if i < last then false else scanEmit i rest

/-- The check `Union::new` performs on one ancestor's emit list
(`src/ops/union.rs` lines 33-41). -/
def checkEmit (e : List Nat) : UnionCheck :=
  match e with
  | [] => UnionCheck.panicked
  | first :: _ => if scanEmit first e then UnionCheck.ok else UnionCheck.unimplemented

/-- `Union::new` runs the scan over every ancestor's emit list (the map is
modelled as an association list from ancestor index to emit list); the
first failing list aborts construction. -/
def unionNew (emit : List (Nat × List Nat)) : UnionCheck :=
  match emit with
  | [] => UnionCheck.ok
  | (_, e) :: rest =>
    match checkEmit e with
    | UnionCheck.ok => unionNew rest
    | r => r

end Distributary

namespace Distributary

/-! ## The latest-per-group operator (`src/ops/latest.rs`) -/

/-- A record in the `Ingredient` API of `latest.rs`: a row plus a sign
(`true` = positive/insert, `false` = negative/retract). -/
structure LRecord where
  row : Row
  pos : Bool
  deriving DecidableEq, Repr

/-- `state.lookup(&[key0], KeyType::Single(v))`: the rows of the operator's
own materialized state whose key column equals `v`.  Modelled from the
spec: §4.1 `lookup(index, key)` returns the multiset of tuples under the
key (the state-map plumbing is not under `src/`); the state is the list of
rows the node currently holds. -/
def lookupGroup (state : List Row) (key0 : Nat) (v : DataType) : List Row :=
  state.filter (fun row => rowGet row key0 == v)

/-- `Latest::on_input` (`src/ops/latest.rs` lines 67-113): partition off
the positives (negatives are dropped — the standalone-negative check is a
`TODO` in the source), and for each positive in input order emit a negative
of the group's current latest (if any) followed by the positive itself.
`state` is an immutable borrow for the whole call, so every lookup sees the
state from before the batch. -/
def latestOnInput (key0 : Nat) (state : List Row) (rs : List LRecord) : List LRecord :=
  let pos := rs.filter (fun r => r.pos)
  pos.flatMap (fun r =>
    (match (lookupGroup state key0 (rowGet r.row key0)).head? with
     | some current => [⟨current, false⟩]
     | Option.none => []) ++ [r])

end Distributary

namespace Distributary

/-! ## The write side of the buffered store (`src/backlog/mod.rs`) -/

/-- `Vec::swap_remove(i)`: replace element `i` with the last element and
pop.  Only called with `i` in bounds. -/
def swapRemove (e : List Row) (i : Nat) : List Row :=
  (e.set i (e.getLastD [])).dropLast

/-- The store behind a `WriteHandle`: a map from key value to the rows
stored under that key, modelled as an association list (the `CHashMap` is
an external crate). -/
abbrev Store := List (DataType × List Row)

/-- Association-list lookup, `self.data.get(&k)`. -/
def Store.getKey (st : Store) (k : DataType) : Option (List Row) :=
  (st.find? (fun p => p.1 == k)).map Prod.snd

/-- Replace the bucket stored under key `k` (which must be present). -/
def Store.setKey (st : Store) (k : DataType) (v : List Row) : Store :=
  st.map (fun p => if p.1 == k then (p.1, v) else p)

/-- Remove the entry for key `k`. -/
def Store.removeKey (st : Store) (k : DataType) : Store :=
  st.filter (fun p => !(p.1 == k))

/-- One step of `WriteHandle::add` (`src/backlog/mod.rs` lines 29-59) for a
positive record: push onto the key's bucket, or insert a fresh singleton
bucket. -/
def addPositive (key : Nat) (st : Store) (r : Row) : Store :=
  match st.getKey (rowGet r key) with
  | some rs => st.setKey (rowGet r key) (rs ++ [r])
  | Option.none => st ++ [(rowGet r key, [r])]

/-- One step of `WriteHandle::add` for a negative record: find the first
row in the key's bucket equal to the retraction on every field and
`swap_remove` it; if the bucket becomes empty, drop the key.  If the key is
absent or no row matches, the store is left untouched. -/
def addNegative (key : Nat) (st : Store) (r : Row) : Store :=
  match st.getKey (rowGet r key) with
  | some e =>
    match e.findIdx? (fun er => er == r) with
    | some i =>
      let e' := swapRemove e i
      if e'.isEmpty then st.removeKey (rowGet r key)
      else st.setKey (rowGet r key) e'
    | Option.none => st
  | Option.none => st

/-- The rows currently stored under key `k` (empty when the key is
absent). -/
def Store.bucket (st : Store) (k : DataType) : List Row :=
  (st.getKey k).getD []

/-- A record as fed to `WriteHandle::add`. -/
structure BRecord where
  row : Row
  pos : Bool
  deriving DecidableEq, Repr

/-- `WriteHandle::add`: apply each record of the batch in order. -/
def writeAdd (key : Nat) (st : Store) (rs : List BRecord) : Store :=
  rs.foldl (fun st r => if r.pos then addPositive key st r.row else addNegative key st r.row) st

end Distributary

namespace Distributary

/-! ## The two-way join operator (`src/ops/join.rs`)

`Joiner` holds an emit list (output column → (source node, source column))
and, per side, the `JoinTarget` describing how that side joins against the
other.  The `HashMap<NodeIndex, Join>` with its two entries is modelled by
the two `Side` structures `a` and `b`; each side also carries the
materialized state backing the other operations' `find` calls on it. -/

/-- `JoinTarget` (`src/ops/join.rs` lines 13-18): the column pairings
`(this-side column, other-side column)` that must agree, the selection mask
used when querying the other side (set to all-`true` over the other view's
columns by `prime`), and whether the other side is outer-joined. -/
structure JoinTarget where
  fields : List (Nat × Nat)
  select : List Bool
  outer : Bool
  deriving DecidableEq, Repr

/-- One side of the two-way join: its node index, the materialized state of
the node (backing `find`), the number of columns of the node, and this
side's `JoinTarget` against the other side. -/
structure Side where
  ni : Nat
  state : List (Row × Int)
  cols : Nat
  target : JoinTarget
  deriving DecidableEq, Repr

/-- A `Joiner` specialised to the two-way case: the emit list and the two
sides of `self.join`. -/
structure Joiner where
  emit : List (Nat × Nat)
  a : Side
  b : Side
  deriving DecidableEq, Repr

/-- The equality parameters `Joiner::join` builds from the incoming row:
one condition per join-field pair, constraining the other side's column to
the incoming row's value (`src/ops/join.rs` lines 206-215). -/
def mkParams (fields : List (Nat × Nat)) (r : Row) : List Condition :=
  fields.map (fun lr => ⟨lr.2, .equal (.const (rowGet r lr.1))⟩)

/-- The left/outer null-padded output row (`src/ops/join.rs` lines
224-234): emit columns sourced from the other side become `None`, columns
sourced from this side come from the incoming row. -/
def nullPad (emit : List (Nat × Nat)) (otherNi : Nat) (r : Row) : Row :=
  emit.map (fun sc => if sc.1 == otherNi then DataType.none else rowGet r sc.2)

/-- Weaving one matching right row with the incoming row according to the
emit list (`src/ops/join.rs` lines 243-258). -/
def combineRow (emit : List (Nat × Nat)) (otherNi : Nat) (r right : Row) : Row :=
  emit.map (fun sc => if sc.1 == otherNi then rowGet right sc.2 else rowGet r sc.2)

/-- `Joiner::join` (`src/ops/join.rs` lines 196-271): query the other side
with equality conditions derived from the join fields; if nothing matches
and the other side is outer-joined, emit one null-padded row carrying the
incoming record's timestamp; otherwise emit one combined row per match with
timestamp `max` of the two.  (`ts` is the query-consistency timestamp
passed to `find`; the snapshot semantics of `find` are modelled by the
side's `state` list.) -/
def joinSide (emit : List (Nat × Nat)) (this other : Side) (r : Row) (lts : Int)
    (_ts : Int) : List (Row × Int) :=
  if (find other.state
        (some ⟨this.target.select, mkParams this.target.fields r⟩)).isEmpty
      && this.target.outer then
    [(nullPad emit other.ni r, lts)]
  else
    (find other.state
        (some ⟨this.target.select, mkParams this.target.fields r⟩)).map
      (fun p => (combineRow emit other.ni r p.1, max lts p.2))

/-- A record of the `NodeOp` API (`ops::Record`): row, sign, timestamp. -/
structure JRecord where
  row : Row
  pos : Bool
  ts : Int
  deriving DecidableEq, Repr

/-- `self.join.keys().find(|&other| other != &left.0)` /
`&self.join[&left.0]`: resolve which of the two sides a record came from
(first component) and the opposite side (second component). -/
def Joiner.sides (j : Joiner) (src : Nat) : Side × Side :=
  if src == j.a.ni then (j.a, j.b) else (j.b, j.a)

/-- `Joiner::forward` (`src/ops/join.rs` lines 288-320): for each record of
the update, run `Joiner::join` on its row and re-sign the outputs with the
input record's sign.  The Rust function always returns
`Some(Update::Records(..))`. -/
def Joiner.forward (j : Joiner) (rs : List JRecord) (src : Nat) (ts : Int) :
    Option (List JRecord) :=
  some (rs.flatMap (fun rec =>
    let st := j.sides src
    (joinSide j.emit st.1 st.2 rec.row rec.ts ts).map
      (fun p => ⟨p.1, rec.pos, p.2⟩)))

/-- `self.join.keys().min()` and the lookup of that side: the two sides
ordered so that the side with the lowest node index comes first — the outer
loop of `Joiner::query` (`src/ops/join.rs` lines 330-333). -/
def Joiner.outerSides (j : Joiner) : Side × Side :=
  if j.a.ni ≤ j.b.ni then (j.a, j.b) else (j.b, j.a)

/-- The condition filter of `Joiner::query` (`src/ops/join.rs` lines
343-362): keep the caller conditions whose emit source is the outer side,
remapped to that side's own column numbers. -/
def Joiner.lparams (j : Joiner) (lefti : Nat) (q : Query) : List Condition :=
  q.having.filterMap (fun c =>
    if ((j.emit.get? c.column).getD (0, 0)).1 == lefti then
      some ⟨((j.emit.get? c.column).getD (0, 0)).2, c.cmp⟩
    else Option.none)

/-- The query `Joiner::query` sends to the outer side: none when the caller
gave no query or none of its conditions bind the outer side; otherwise an
all-columns select with the filtered conditions (`src/ops/join.rs` lines
339-371). -/
def Joiner.lq (j : Joiner) (q : Option Query) : Option Query :=
  match q with
  | Option.none => Option.none
  | some q =>
    if (j.lparams j.outerSides.1.ni q).isEmpty then Option.none
    else some ⟨List.replicate j.outerSides.1.cols true, j.lparams j.outerSides.1.ni q⟩

/-- `Joiner::query` (`src/ops/join.rs` lines 322-391): pick the side with
the lowest node index as the outer loop, query it with the filtered caller
conditions (or no query at all when none apply), join each resulting row
against the other side exactly as `forward` does, and feed every joined row
through the caller's query. -/
def Joiner.query (j : Joiner) (q : Option Query) (ts : Int) : List (Row × Int) :=
  ((find j.outerSides.1.state (j.lq q)).flatMap
      (fun p => joinSide j.emit j.outerSides.1 j.outerSides.2 p.1 p.2 ts)).filterMap
    (fun p =>
      match q with
      | Option.none => some p
      | some q => (q.feed p.1).map (fun r => (r, p.2)))

/-- Whether a candidate row of the opposite side agrees with the incoming
row on every join-field pair — the specification's notion of "matches on
the join fields". -/
def matchesOn (fields : List (Nat × Nat)) (r right : Row) : Bool :=
  fields.all (fun lr => rowGet right lr.2 == rowGet r lr.1)

/-- The rows of the opposite side that match the incoming row on the join
fields. -/
def joinMatches (this other : Side) (r : Row) : List (Row × Int) :=
  other.state.filter (fun p => matchesOn this.target.fields r p.1)

/-- The point-query procedure as the specification words it: choose the
side with the lowest node index as the outer loop, forward to it exactly
those caller conditions whose emit source is that side (remapped through
the emit list), join every outer row against the other side as in delta
forwarding, and apply the caller's full query to every joined row.  This
definition follows the spec sentence; `Joiner.query` above follows the
code, and the refinement theorem relates the two. -/
def Joiner.querySpec (j : Joiner) (q : Query) (ts : Int) : List (Row × Int) :=
  ((find j.outerSides.1.state
        (some ⟨List.replicate j.outerSides.1.cols true,
               q.having.filterMap (fun c =>
                 if ((j.emit.get? c.column).getD (0, 0)).1 == j.outerSides.1.ni then
                   some ⟨((j.emit.get? c.column).getD (0, 0)).2, c.cmp⟩
                 else Option.none)⟩)).flatMap
      (fun p => joinSide j.emit j.outerSides.1 j.outerSides.2 p.1 p.2 ts)).filterMap
    (fun p => (q.feed p.1).map (fun r => (r, p.2)))

/-! ### Concrete fixtures used by the witness theorems

These mirror the repository's own test setup (`src/ops/join.rs`, `setup`):
two base views `left = ["l0","l1"]` (node 0) and `right = ["r0","r1"]`
(node 1), joined on their first columns, emitting `(l0, l1, r1)`. -/

/-- The left side of the test join: node 0, holding `[1,"a"]@0, [2,"b"]@1,
[3,"c"]@2`. -/
def testLeft : Side :=
  { ni := 0
    state := [([DataType.int 1, DataType.text "a"], 0),
              ([DataType.int 2, DataType.text "b"], 1),
              ([DataType.int 3, DataType.text "c"], 2)]
    cols := 2
    target := { fields := [(0, 0)], select := [true, true], outer := false } }

/-- The right side of the test join: node 1, holding `[1,"x"]@0, [1,"y"]@1,
[2,"z"]@2`. -/
def testRight : Side :=
  { ni := 1
    state := [([DataType.int 1, DataType.text "x"], 0),
              ([DataType.int 1, DataType.text "y"], 1),
              ([DataType.int 2, DataType.text "z"], 2)]
    cols := 2
    target := { fields := [(0, 0)], select := [true, true], outer := false } }

/-- The inner-join fixture over `testLeft`/`testRight`, emitting columns
`(0,0), (0,1), (1,1)`. -/
def testJoiner : Joiner :=
  { emit := [(0, 0), (0, 1), (1, 1)], a := testLeft, b := testRight }

/-- The left-join fixture: as `testJoiner` but with an empty right side
that is outer-joined (every emit column sourced from node 1 null-pads). -/
def testLeftJoiner : Joiner :=
  { emit := [(0, 0), (0, 1), (1, 1)]
    a := { testLeft with
             target := { fields := [(0, 0)], select := [true, true], outer := true } }
    b := { testRight with state := [] } }

end Distributary

namespace Distributary

/-! ## Replay-path segmentation and the a-b-a check
(`src/flow/migrate/materialization.rs`, `reconstruct`, lines 437-522) -/

/-- The segment-building inner loop of `reconstruct` (lines 445-455): nodes
are appended to the current segment while their domain matches the last
segment's domain (the code's `last_domain` is always the domain of the last
segment pushed); a node in a different domain starts a new segment. -/
def segGo (dom : Nat → Nat) (d : Nat) (cur : List Nat) : List Nat → List (Nat × List Nat)
  | [] => [(d, cur)]
  | n :: rest =>
    if dom n = d then segGo dom d (cur ++ [n]) rest
    else (d, cur) :: segGo dom (dom n) [n] rest

/-- Partition a replay path into maximal same-domain segments, as
`reconstruct` does before registering the path. -/
def segmentsOf (dom : Nat → Nat) : List Nat → List (Nat × List Nat)
  | [] => []
  | n :: rest => segGo dom (dom n) [n] rest

/-- The `seen` loop of `reconstruct` (lines 482-489): walk the segments in
order and fail (`assert!(!seen.contains(domain))`, "a-b-a domain replays
are not yet supported") as soon as a segment's domain has been seen
before. -/
def seenCheck (seen : List Nat) : List Nat → Bool
  | [] => true
  | d :: rest => if d ∈ seen then false else seenCheck (d :: seen) rest

/-- Whether `reconstruct` accepts one replay path: the path is reversed so
the materialized root comes first (line 439), segmented by domain, and the
a-b-a assert must pass for every segment. -/
def reconstructPathOk (dom : Nat → Nat) (path : List Nat) : Bool :=
  seenCheck [] ((segmentsOf dom path.reverse).map Prod.fst)

end Distributary

namespace Distributary

/-! ## Index assignment of the materialization planner
(`src/flow/migrate/materialization.rs`, `index`, lines 260-280) -/

/-- What the planner needs to know about a node when finalizing
materializations: whether it is an internal node, and whether it is a base.
(`node.is_base()` is only `true` on internal nodes.) -/
inductive NodeKind
  | base
  | internal
  | other
  deriving DecidableEq, Repr

/-- The final filter of `index` (lines 260-280): a materialized node keeps
its suggested indices; a materialized node with no suggested indices is
dropped — unless it is a base node, which is kept with the made-up default
index on column 0.  `state` is the planner's map from materialized node to
optional suggested indices, modelled as an association list; `kindOf`
models the `graph[map[&n]]` lookup. -/
def indexFinal (kindOf : Nat → NodeKind) (state : List (Nat × Option (List (List Nat)))) :
    List (Nat × List (List Nat)) :=
  state.filterMap (fun p =>
    match p.2 with
    | some col => some (p.1, col)
    | Option.none =>
      match kindOf p.1 with
      | NodeKind.base => some (p.1, [[0]])
      | _ => Option.none)

end Distributary

namespace Distributary

/-! ## Proofs about `Union::new` (claims on `src/ops/union.rs`) -/

/-- `scanEmit last l` succeeds exactly when `last :: l` is weakly
increasing. -/
theorem scanEmit_eq_chain (last : Nat) (l : List Nat) :
    scanEmit last l = true ↔ List.Chain' (· ≤ ·) (last :: l) := by
  induction l generalizing last with
  | nil => simp [scanEmit]
  | cons i rest ih =>
    show (if i < last then false else scanEmit i rest) = true ↔ _
    by_cases h : i < last
    · rw [if_pos h]
      simp only [Bool.false_eq_true, false_iff, List.chain'_cons, not_and]
      intro hle
      omega
    · rw [if_neg h, ih i]
      constructor
      · intro hc
        exact List.chain'_cons.mpr ⟨Nat.le_of_not_lt h, hc⟩
      · intro hc
        exact (List.chain'_cons.mp hc).2

/-- `checkEmit` succeeds exactly on non-empty weakly increasing lists. -/
theorem checkEmit_ok_iff (e : List Nat) :
    checkEmit e = UnionCheck.ok ↔ e ≠ [] ∧ List.Chain' (· ≤ ·) e := by
  match e with
  | [] => simp [checkEmit]
  | first :: rest =>
    have h2 : List.Chain' (· ≤ ·) (first :: first :: rest) ↔
        List.Chain' (· ≤ ·) (first :: rest) := by
      rw [List.chain'_cons]
      simp
    constructor
    · intro h
      refine ⟨by simp, ?_⟩
      by_cases hs : scanEmit first (first :: rest) = true
      · exact h2.mp ((scanEmit_eq_chain _ _).mp hs)
      · simp [checkEmit, hs] at h
    · rintro ⟨-, hc⟩
      have hs := (scanEmit_eq_chain first (first :: rest)).mpr (h2.mpr hc)
      simp [checkEmit, hs]

/-- C5 (counterexample): the emit list `[0, 0]` is not strictly increasing,
yet `Union::new` accepts it — the construction check only rejects an index
that is *smaller* than its predecessor, so equal consecutive indices pass. -/
theorem union_new_accepts_equal_indices :
    unionNew [(0, [0, 0])] = UnionCheck.ok ∧ ¬ List.Chain' (· < ·) [0, 0] := by
  constructor
  · rfl
  · intro h
    exact absurd (List.chain'_cons.mp h).1 (lt_irrefl 0)

/-- Shared characterization: `Union::new` succeeds exactly when every
ancestor's emit list is non-empty and weakly increasing. -/
theorem unionNew_ok_characterization (emit : List (Nat × List Nat)) :
    unionNew emit = UnionCheck.ok ↔
      ∀ p ∈ emit, p.2 ≠ [] ∧ List.Chain' (· ≤ ·) p.2 := by
  induction emit with
  | nil => simp [unionNew]
  | cons p rest ih =>
    obtain ⟨n, e⟩ := p
    show (match checkEmit e with
          | UnionCheck.ok => unionNew rest
          | r => r) = UnionCheck.ok ↔ _
    rcases hc : checkEmit e with - | - | -
    case ok =>
      rw [checkEmit_ok_iff] at hc
      simp only [List.mem_cons, forall_eq_or_imp]
      rw [ih]
      simp [hc]
    case panicked =>
      have he : e = [] := by
        by_contra hne
        by_cases hch : List.Chain' (· ≤ ·) e
        · rw [(checkEmit_ok_iff e).mpr ⟨hne, hch⟩] at hc
          cases hc
        · cases e with
          | nil => exact hne rfl
          | cons first tl =>
            have : scanEmit first (first :: tl) ≠ true := by
              intro hs
              have := (checkEmit_ok_iff (first :: tl)).mp (by simp [checkEmit, hs])
              exact hch this.2
            simp only [checkEmit, Bool.not_eq_true] at hc this
            rw [if_neg (by simp [this])] at hc
            cases hc
      subst he
      simp
    case unimplemented =>
      simp only [List.mem_cons, forall_eq_or_imp]
      constructor
      · intro h
        cases h
      · rintro ⟨⟨hne, hch⟩, -⟩
        rw [(checkEmit_ok_iff e).mpr ⟨hne, hch⟩] at hc
        cases hc

/-- C5 (amended): `Union::new` succeeds exactly when every ancestor's emit
list is non-empty and weakly increasing (each emit index is at least its
predecessor); a strictly decreasing adjacent pair — or an empty list — is
rejected at construction. -/
theorem union_new_ok_iff (emit : List (Nat × List Nat)) :
    unionNew emit = UnionCheck.ok ↔
      ∀ p ∈ emit, p.2 ≠ [] ∧ List.Chain' (· ≤ ·) p.2 :=
  unionNew_ok_characterization emit

/-- C5 amended witness: construction succeeds on the repository's own test
emit map `{l: [0,1], r: [0,2]}` because every list is non-empty and weakly
increasing. -/
theorem union_new_ok_iff_witness :
    unionNew [(0, [0, 1]), (1, [0, 2])] = UnionCheck.ok :=
  (union_new_ok_iff [(0, [0, 1]), (1, [0, 2])]).mpr (by
    intro p hp
    simp only [List.mem_cons, List.not_mem_nil, or_false] at hp
    rcases hp with rfl | rfl
    · exact ⟨by simp, List.chain'_cons.mpr ⟨by norm_num, List.chain'_singleton _⟩⟩
    · exact ⟨by simp, List.chain'_cons.mpr ⟨by norm_num, List.chain'_singleton _⟩⟩)

/-- C10: a union that constructs successfully has a non-empty emit list for
every ancestor — `Union::new` unconditionally reads `emit[0]` of each
ancestor's list, so an empty list can never survive construction. -/
theorem union_new_requires_nonempty_emit (emit : List (Nat × List Nat))
    (h : unionNew emit = UnionCheck.ok) : ∀ p ∈ emit, p.2 ≠ [] :=
  fun p hp => ((unionNew_ok_characterization emit).mp h p hp).1

/-- C10 witness: the constructed test union has a non-empty emit list for
ancestor 0. -/
theorem union_new_requires_nonempty_emit_witness :
    ((0, [0, 1]) : Nat × List Nat).2 ≠ [] :=
  union_new_requires_nonempty_emit [(0, [0, 1]), (1, [0, 2])] (by rfl)
    (0, [0, 1]) (by decide)

end Distributary

namespace Distributary

/-! ## Proofs about `Latest::on_input` (claims on `src/ops/latest.rs`) -/

/-- C3 (failing input): with the group's current latest being `[1,1]`
(group key = column 0), a single batch carrying the two positives `[1,2]`
and `[1,3]` for the same key makes `on_input` emit the *old* latest `[1,1]`
as a negative **twice** — once per positive, because the state is an
immutable borrow for the whole call — and keep **both** positives, instead
of retracting the prior exactly once and letting only the final record
`[1,3]` survive. -/
theorem latest_double_retraction_same_key :
    latestOnInput 0 [[DataType.int 1, DataType.int 1]]
        [⟨[DataType.int 1, DataType.int 2], true⟩,
         ⟨[DataType.int 1, DataType.int 3], true⟩] =
      [⟨[DataType.int 1, DataType.int 1], false⟩,
       ⟨[DataType.int 1, DataType.int 2], true⟩,
       ⟨[DataType.int 1, DataType.int 1], false⟩,
       ⟨[DataType.int 1, DataType.int 3], true⟩] := by
  rfl

/-- C4 (failing input): a batch consisting of a single standalone negative
(whose key has no positive in the batch) is not rejected by `on_input`; the
negative is silently discarded by the positive/negative partition — the
standalone-negative assert announced in the source comment is a `TODO` —
and the call returns normally with an empty delta. -/
theorem latest_standalone_negative_not_rejected :
    latestOnInput 0 [[DataType.int 1, DataType.int 1]]
        [⟨[DataType.int 1, DataType.int 1], false⟩] = [] := by
  rfl

end Distributary

namespace Distributary

/-! ## Proofs about `WriteHandle::add` (claims on `src/backlog/mod.rs`) -/

/-- The last element of a non-empty list does not depend on the default. -/
theorem getLastD_of_ne_nil {α : Type} (l : List α) (h : l ≠ []) (d₁ d₂ : α) :
    l.getLastD d₁ = l.getLastD d₂ := by
  cases l with
  | nil => exact absurd rfl h
  | cons a t => simp only [List.getLastD_cons]

/-- `getLastD` on a non-empty list is `getLast`. -/
theorem getLastD_eq_getLast {α : Type} (l : List α) (h : l ≠ []) (d : α) :
    l.getLastD d = l.getLast h := by
  induction l generalizing d with
  | nil => exact absurd rfl h
  | cons a t ih =>
    cases t with
    | nil => rfl
    | cons b t' =>
      rw [List.getLastD_cons, List.getLast_cons (by simp)]
      exact ih (by simp) _

/-- `swap_remove` at the index found by `position(|er| er == &r)` removes,
up to reordering, exactly the first occurrence of `r`. -/
theorem swapRemove_findIdx_perm (e : List Row) (r : Row) (i : Nat)
    (h : e.findIdx? (fun er => er == r) = some i) :
    List.Perm (swapRemove e i) (e.erase r) ∧ r ∈ e := by
  induction e generalizing i with
  | nil => simp [List.findIdx?] at h
  | cons x t ih =>
    by_cases hx : x = r
    · subst hx
      have hi : i = 0 := by
        rw [List.findIdx?_cons] at h
        simp at h
        omega
      subst hi
      refine ⟨?_, by simp⟩
      rw [List.erase_cons_head]
      cases t with
      | nil => simp [swapRemove]
      | cons b t' =>
        have hL : (x :: b :: t').getLastD [] = (b :: t').getLast (by simp) := by
          rw [List.getLastD_cons]
          exact getLastD_eq_getLast _ (by simp) _
        show List.Perm (((x :: b :: t').set 0 ((x :: b :: t').getLastD [])).dropLast) _
        rw [hL, List.set_cons_zero]
        rw [List.dropLast_cons_of_ne_nil (by simp)]
        have h1 : List.Perm
            ((b :: t').getLast (by simp) :: (b :: t').dropLast)
            ((b :: t').dropLast ++ [(b :: t').getLast (by simp)]) :=
          (List.perm_append_singleton _ _).symm
        have h2 : (b :: t').dropLast ++ [(b :: t').getLast (by simp)] = b :: t' :=
          List.dropLast_append_getLast (by simp)
        have h3 : List.Perm ((b :: t').dropLast ++ [(b :: t').getLast (by simp)])
            (b :: t') := by
          rw [h2]
        exact h1.trans h3
    · have hxr : (x == r) = false := by simp [hx]
      rw [List.findIdx?_cons, hxr] at h
      simp only [Bool.false_eq_true, if_false] at h
      rw [List.findIdx?_succ] at h
      simp only [Option.map_eq_some'] at h
      obtain ⟨j, hj, hji⟩ := h
      have ht : t ≠ [] := by
        intro hnil
        rw [hnil] at hj
        simp [List.findIdx?] at hj
      obtain ⟨hperm, hmem⟩ := ih j hj
      subst hji
      refine ⟨?_, by simp [hmem]⟩
      have hL : (x :: t).getLastD [] = t.getLastD [] := by
        rw [List.getLastD_cons]
        exact getLastD_of_ne_nil t ht _ _
      show List.Perm (((x :: t).set (j + 1) ((x :: t).getLastD [])).dropLast) _
      rw [hL, List.set_cons_succ]
      rw [List.dropLast_cons_of_ne_nil (by simp [ht])]
      rw [List.erase_cons_tail]
      · exact List.Perm.cons x hperm
      · simp [hx]

/-- `getKey` unfolded over a cons cell. -/
theorem getKey_cons (pk : DataType) (pv : List Row) (rest : Store) (k : DataType) :
    Store.getKey ((pk, pv) :: rest) k =
      if (pk == k) = true then some pv else Store.getKey rest k := by
  cases hc : pk == k with
  | true => simp [Store.getKey, List.find?, hc]
  | false => simp [Store.getKey, List.find?, hc]

/-- `setKey` unfolded over a cons cell. -/
theorem setKey_cons (pk : DataType) (pv : List Row) (rest : Store) (k : DataType)
    (v : List Row) :
    Store.setKey ((pk, pv) :: rest) k v =
      (if (pk == k) = true then (pk, v) else (pk, pv)) :: Store.setKey rest k v :=
  rfl

/-- `removeKey` unfolded over a cons cell. -/
theorem removeKey_cons (pk : DataType) (pv : List Row) (rest : Store) (k : DataType) :
    Store.removeKey ((pk, pv) :: rest) k =
      if (pk == k) = true then Store.removeKey rest k
      else (pk, pv) :: Store.removeKey rest k := by
  cases hc : pk == k with
  | true => simp [Store.removeKey, List.filter, hc]
  | false => simp [Store.removeKey, List.filter, hc]

/-- `getKey` after `setKey` at the same key returns the new value, provided
the key was present. -/
theorem getKey_setKey_self (st : Store) (k : DataType) (v b : List Row)
    (h : st.getKey k = some b) : (st.setKey k v).getKey k = some v := by
  induction st with
  | nil => simp [Store.getKey] at h
  | cons p rest ih =>
    obtain ⟨pk, pv⟩ := p
    cases hc : pk == k with
    | true =>
      rw [setKey_cons, if_pos hc, getKey_cons, if_pos hc]
    | false =>
      rw [getKey_cons, if_neg (by simp [hc])] at h
      rw [setKey_cons, if_neg (by simp [hc]), getKey_cons, if_neg (by simp [hc])]
      exact ih h

/-- `getKey` at a different key is unchanged by `setKey`. -/
theorem getKey_setKey_ne (st : Store) (k k' : DataType) (v : List Row)
    (h : k' ≠ k) : (st.setKey k v).getKey k' = st.getKey k' := by
  induction st with
  | nil => rfl
  | cons p rest ih =>
    obtain ⟨pk, pv⟩ := p
    cases hc : pk == k with
    | true =>
      have hk : pk = k := by simpa using hc
      have hq : (pk == k') = false := by simp [hk, Ne.symm h]
      rw [setKey_cons, if_pos hc, getKey_cons, if_neg (by simp [hq]),
        getKey_cons, if_neg (by simp [hq])]
      exact ih
    | false =>
      rw [setKey_cons, if_neg (by simp [hc])]
      cases hq : pk == k' with
      | true =>
        rw [getKey_cons, if_pos hq, getKey_cons, if_pos hq]
      | false =>
        rw [getKey_cons, if_neg (by simp [hq]), getKey_cons, if_neg (by simp [hq])]
        exact ih

/-- `getKey` at the removed key is gone after `removeKey`. -/
theorem getKey_removeKey_self (st : Store) (k : DataType) :
    (st.removeKey k).getKey k = Option.none := by
  induction st with
  | nil => rfl
  | cons p rest ih =>
    obtain ⟨pk, pv⟩ := p
    cases hc : pk == k with
    | true =>
      rw [removeKey_cons, if_pos hc]
      exact ih
    | false =>
      rw [removeKey_cons, if_neg (by simp [hc]), getKey_cons, if_neg (by simp [hc])]
      exact ih

/-- `getKey` at a different key is unchanged by `removeKey`. -/
theorem getKey_removeKey_ne (st : Store) (k k' : DataType) (h : k' ≠ k) :
    (st.removeKey k).getKey k' = st.getKey k' := by
  induction st with
  | nil => rfl
  | cons p rest ih =>
    obtain ⟨pk, pv⟩ := p
    cases hc : pk == k with
    | true =>
      have hk : pk = k := by simpa using hc
      have hq : (pk == k') = false := by simp [hk, Ne.symm h]
      rw [removeKey_cons, if_pos hc, getKey_cons, if_neg (by simp [hq])]
      exact ih
    | false =>
      rw [removeKey_cons, if_neg (by simp [hc])]
      cases hq : pk == k' with
      | true =>
        rw [getKey_cons, if_pos hq, getKey_cons, if_pos hq]
      | false =>
        rw [getKey_cons, if_neg (by simp [hq]), getKey_cons, if_neg (by simp [hq])]
        exact ih

end Distributary

namespace Distributary

/-- C7 (counterexample): retracting the tuple `[1]` from a store that does
not hold it (the store only has key `2`) leaves the store unchanged and
returns normally — `WriteHandle::add` has no panic path for a missing
retraction, contradicting the claim that a retraction never silently
leaves the state unchanged. -/
theorem write_missing_retraction_is_silent_noop :
    writeAdd 0 [(DataType.int 2, [[DataType.int 2]])]
        [⟨[DataType.int 1], false⟩] =
      [(DataType.int 2, [[DataType.int 2]])] := by
  rfl

/-- C7 (amended): applying a negative record removes, up to the reordering
introduced by `swap_remove`, exactly the first tuple under the record's key
that matches it on every field (dropping the key when its bucket empties),
leaves every other key untouched, and — when no matching tuple is present —
leaves the store unchanged without panicking. -/
theorem write_retraction_removes_first_match (key : Nat) (st : Store) (r : Row) :
    List.Perm ((writeAdd key st [⟨r, false⟩]).bucket (rowGet r key))
        ((st.bucket (rowGet r key)).erase r)
    ∧ (∀ q, q ≠ rowGet r key → (writeAdd key st [⟨r, false⟩]).getKey q = st.getKey q)
    ∧ (r ∉ st.bucket (rowGet r key) → writeAdd key st [⟨r, false⟩] = st) := by
  have hw : writeAdd key st [⟨r, false⟩] = addNegative key st r := rfl
  rw [hw]
  rcases hK : st.getKey (rowGet r key) with - | e
  · have ha : addNegative key st r = st := by
      simp only [addNegative, hK]
    rw [ha]
    refine ⟨?_, fun q _ => rfl, fun _ => rfl⟩
    unfold Store.bucket
    rw [hK]
    exact List.Perm.refl _
  · rcases hI : e.findIdx? (fun er => er == r) with - | i
    · have hnm : r ∉ e := by
        intro hmem
        have := List.findIdx?_eq_none_iff.mp hI r hmem
        simp at this
      have ha : addNegative key st r = st := by
        simp only [addNegative, hK, hI]
      rw [ha]
      refine ⟨?_, fun q _ => rfl, fun _ => rfl⟩
      unfold Store.bucket
      rw [hK]
      simp only [Option.getD_some]
      rw [List.erase_of_not_mem hnm]
    · obtain ⟨hperm, hmem⟩ := swapRemove_findIdx_perm e r i hI
      have hbs : st.bucket (rowGet r key) = e := by
        unfold Store.bucket
        rw [hK]
        rfl
      by_cases he : (swapRemove e i).isEmpty = true
      · have he' : swapRemove e i = [] := by simpa using he
        have her : e.erase r = [] := by
          rw [he'] at hperm
          exact (List.Perm.symm hperm).eq_nil
        have ha : addNegative key st r = st.removeKey (rowGet r key) := by
          simp only [addNegative, hK, hI]
          rw [if_pos he]
        rw [ha]
        refine ⟨?_, fun q hq => getKey_removeKey_ne st _ q hq, fun hno => absurd ?_ hno⟩
        · unfold Store.bucket
          rw [getKey_removeKey_self, hK]
          simp only [Option.getD_none, Option.getD_some]
          rw [her]
        · rw [hbs]
          exact hmem
      · have ha : addNegative key st r = st.setKey (rowGet r key) (swapRemove e i) := by
          simp only [addNegative, hK, hI]
          rw [if_neg he]
        rw [ha]
        refine ⟨?_, fun q hq => getKey_setKey_ne st _ q _ hq, fun hno => absurd ?_ hno⟩
        · unfold Store.bucket
          rw [getKey_setKey_self st _ _ e hK, hK]
          simp only [Option.getD_some]
          exact hperm
        · rw [hbs]
          exact hmem

end Distributary

namespace Distributary

/-! ## Proofs about replay-path segmentation (claims on
`src/flow/migrate/materialization.rs`, `reconstruct`) -/

/-- The domains of the segments built by the `reconstruct` loop are the
consecutive-duplicate-free compression of the per-node domain sequence. -/
theorem segGo_map_fst (dom : Nat → Nat) (l : List Nat) :
    ∀ (d : Nat) (cur : List Nat),
      (segGo dom d cur l).map Prod.fst = List.destutter' (· ≠ ·) d (l.map dom) := by
  induction l with
  | nil =>
    intro d cur
    rfl
  | cons n rest ih =>
    intro d cur
    show (if dom n = d then segGo dom d (cur ++ [n]) rest
          else (d, cur) :: segGo dom (dom n) [n] rest).map Prod.fst = _
    rw [List.map_cons]
    by_cases h : dom n = d
    · have hne : ¬(d ≠ dom n) := by omega
      rw [if_pos h, ih, List.destutter'_cons_neg _ hne]
    · have hne : d ≠ dom n := fun hh => h hh.symm
      rw [if_neg h, List.map_cons, ih, List.destutter'_cons_pos _ hne]

/-- `segmentsOf` projected on domains equals `destutter (· ≠ ·)` of the
domain sequence. -/
theorem segmentsOf_map_fst (dom : Nat → Nat) (path : List Nat) :
    (segmentsOf dom path).map Prod.fst = (path.map dom).destutter (· ≠ ·) := by
  cases path with
  | nil => rfl
  | cons n rest =>
    show (segGo dom (dom n) [n] rest).map Prod.fst = _
    rw [segGo_map_fst, List.map_cons, List.destutter_cons']

/-- The `seen`-set loop accepts exactly duplicate-free sequences avoiding
the initial `seen` set. -/
theorem seenCheck_iff (ds : List Nat) :
    ∀ (seen : List Nat),
      seenCheck seen ds = true ↔ ds.Nodup ∧ ∀ d ∈ ds, d ∉ seen := by
  induction ds with
  | nil =>
    intro seen
    simp [seenCheck]
  | cons d rest ih =>
    intro seen
    show (if d ∈ seen then false else seenCheck (d :: seen) rest) = true ↔ _
    by_cases h : d ∈ seen
    · rw [if_pos h]
      simp only [Bool.false_eq_true, false_iff, not_and]
      intro _ hall
      exact absurd h (hall d (by simp))
    · rw [if_neg h, ih]
      constructor
      · rintro ⟨hnd, hni⟩
        have hd : d ∉ rest := by
          intro hm
          exact absurd (by simp : d ∈ d :: seen) (hni d hm)
        refine ⟨List.nodup_cons.mpr ⟨hd, hnd⟩, ?_⟩
        intro x hx
        rcases List.mem_cons.mp hx with rfl | hx'
        · exact h
        · intro hxs
          exact absurd (List.mem_cons_of_mem _ hxs) (hni x hx')
      · rintro ⟨hnd, hall⟩
        obtain ⟨hd, hnd'⟩ := List.nodup_cons.mp hnd
        refine ⟨hnd', ?_⟩
        intro x hx hxs
        rcases List.mem_cons.mp hxs with rfl | hxs'
        · exact hd hx
        · exact hall x (List.mem_cons_of_mem _ hx) hxs'

/-- C8: `reconstruct` rejects a replay path exactly when the sequence of
same-domain segments (the consecutive-duplicate-free compression of the
domain sequence along the reversed path) visits some domain more than once
— the a-b-a assert fires on a duplicated segment domain, and only then. -/
theorem reconstruct_rejects_aba_paths (dom : Nat → Nat) (path : List Nat) :
    reconstructPathOk dom path = false ↔
      ¬ ((path.reverse.map dom).destutter (· ≠ ·)).Nodup := by
  unfold reconstructPathOk
  rw [segmentsOf_map_fst]
  have h2 := seenCheck_iff ((path.reverse.map dom).destutter (· ≠ ·)) []
  simp only [List.not_mem_nil, not_false_iff, implies_true, and_true] at h2
  constructor
  · intro hfalse hnd
    rw [h2.mpr hnd] at hfalse
    cases hfalse
  · intro hnot
    cases hsc : seenCheck [] ((path.reverse.map dom).destutter (· ≠ ·)) with
    | false => rfl
    | true => exact absurd (h2.mp hsc) hnot

end Distributary

namespace Distributary

/-! ## Proofs about the planner's index assignment (claims on
`src/flow/migrate/materialization.rs`, `index`) -/

/-- C9: in the planner's final pass, a materialized node whose suggested
indices are known keeps them; a materialized node with no suggested indices
is removed from the materialization set unless it is a base node, which is
always kept and receives the single default index on column 0. -/
theorem index_assignment_final (kindOf : Nat → NodeKind)
    (state : List (Nat × Option (List (List Nat))))
    (hnd : (state.map Prod.fst).Nodup) :
    ∀ p ∈ state,
      (∀ c, p.2 = some c → (p.1, c) ∈ indexFinal kindOf state)
      ∧ (p.2 = Option.none → kindOf p.1 = NodeKind.base →
          (p.1, [[0]]) ∈ indexFinal kindOf state)
      ∧ (p.2 = Option.none → kindOf p.1 ≠ NodeKind.base →
          p.1 ∉ (indexFinal kindOf state).map Prod.fst) := by
  intro p hp
  refine ⟨?_, ?_, ?_⟩
  · intro c hc
    apply List.mem_filterMap.mpr
    refine ⟨p, hp, ?_⟩
    show (match p.2 with
          | some col => some (p.1, col)
          | Option.none =>
            match kindOf p.1 with
            | NodeKind.base => some (p.1, [[0]])
            | _ => Option.none) = some (p.1, c)
    rw [hc]
  · intro hn hb
    apply List.mem_filterMap.mpr
    refine ⟨p, hp, ?_⟩
    show (match p.2 with
          | some col => some (p.1, col)
          | Option.none =>
            match kindOf p.1 with
            | NodeKind.base => some (p.1, [[0]])
            | _ => Option.none) = some (p.1, [[0]])
    rw [hn, hb]
  · intro hn hb hmemfst
    obtain ⟨q, hq, hq1⟩ := List.mem_map.mp hmemfst
    obtain ⟨a, ha, hfa⟩ := List.mem_filterMap.mp hq
    have hkey : q.1 = a.1 := by
      rcases h2 : a.2 with - | c
      · simp only [h2] at hfa
        rcases hk : kindOf a.1 with - | - | -
        case base =>
          simp only [hk] at hfa
          cases hfa
          rfl
        case internal =>
          simp only [hk] at hfa
          cases hfa
        case other =>
          simp only [hk] at hfa
          cases hfa
      · simp only [h2] at hfa
        cases hfa
        rfl
    have hap : a = p :=
      List.inj_on_of_nodup_map hnd ha hp (by rw [← hkey, hq1])
    subst hap
    rcases hk : kindOf a.1 with - | - | -
    case base => exact hb hk
    case internal =>
      simp only [hn, hk] at hfa
      exact Option.noConfusion hfa
    case other =>
      simp only [hn, hk] at hfa
      exact Option.noConfusion hfa

/-- C9 witness: with node 0 a base and node 1 a non-base internal node,
both with no suggested index, and node 2 carrying a suggested index: node 0
is kept with the default index `[0]`, and node 1 is dropped from the
materialization set. -/
theorem index_assignment_final_witness :
    (0, [[0]]) ∈ indexFinal (fun n => if n = 0 then NodeKind.base else NodeKind.internal)
        [(0, Option.none), (1, Option.none), (2, some [[3]])]
    ∧ (1 : Nat) ∉ (indexFinal (fun n => if n = 0 then NodeKind.base else NodeKind.internal)
        [(0, Option.none), (1, Option.none), (2, some [[3]])]).map Prod.fst := by
  have h := index_assignment_final
      (fun n => if n = 0 then NodeKind.base else NodeKind.internal)
      [(0, Option.none), (1, Option.none), (2, some [[3]])] (by decide)
  exact ⟨(h (0, Option.none) (by decide)).2.1 rfl (by decide),
         (h (1, Option.none) (by decide)).2.2 rfl (by decide)⟩

end Distributary

namespace Distributary

/-! ## Proofs about the two-way join (claims on `src/ops/join.rs`) -/

/-- The equality conditions `Joiner::join` builds hold on a candidate row
exactly when that row matches the incoming row on every join-field pair. -/
theorem mkParams_all (fields : List (Nat × Nat)) (r right : Row) :
    (mkParams fields r).all (condHolds right) = matchesOn fields r right := by
  unfold mkParams matchesOn
  induction fields with
  | nil => rfl
  | cons f rest ih =>
    rw [List.map_cons, List.all_cons, List.all_cons, ih]
    rfl

/-- `find` with a present query unfolds to a `filterMap` over the state. -/
theorem find_some (st : List (Row × Int)) (q : Query) :
    find st (some q) =
      st.filterMap (fun p => (q.feed p.1).map (fun r => (r, p.2))) :=
  rfl

/-- When the projection mask is the identity on every stored row, `find`
with a pure-conditions query is a filter. -/
theorem find_eq_filter (st : List (Row × Int)) (sel : List Bool)
    (conds : List Condition) (hsel : ∀ p ∈ st, project sel p.1 = p.1) :
    find st (some ⟨sel, conds⟩) =
      st.filter (fun p => conds.all (condHolds p.1)) := by
  induction st with
  | nil => rfl
  | cons x t ih =>
    have hx := hsel x (List.mem_cons_self x t)
    have ht : ∀ p ∈ t, project sel p.1 = p.1 :=
      fun p hp => hsel p (List.mem_cons_of_mem _ hp)
    rw [find_some, List.filterMap_cons]
    rw [find_some] at ih
    by_cases h : conds.all (condHolds x.1) = true
    · have hfx : Query.feed ⟨sel, conds⟩ x.1 = some x.1 := by
        unfold Query.feed
        rw [if_pos h, hx]
      simp only [hfx, Option.map_some']
      rw [List.filter_cons_of_pos
        (p := fun q : Row × Int => conds.all (condHolds q.1)) h]
      rw [← ih ht]
    · have hfx : Query.feed ⟨sel, conds⟩ x.1 = Option.none := by
        unfold Query.feed
        rw [if_neg h]
      simp only [hfx, Option.map_none']
      rw [List.filter_cons_of_neg
        (p := fun q : Row × Int => conds.all (condHolds q.1)) (by simpa using h)]
      exact ih ht

/-- The `find` issued by `Joiner::join` returns exactly the opposite-side
rows matching on the join fields. -/
theorem joinSide_find_matches (this other : Side) (r : Row)
    (hsel : ∀ p ∈ other.state, project this.target.select p.1 = p.1) :
    find other.state (some ⟨this.target.select, mkParams this.target.fields r⟩) =
      joinMatches this other r := by
  rw [find_eq_filter other.state this.target.select (mkParams this.target.fields r) hsel]
  unfold joinMatches
  simp only [mkParams_all]

/-- `Joiner::join` in the non-outer-triggering case: one combined row per
matching opposite row, with timestamp `max`. -/
theorem joinSide_eq_map_matches (emit : List (Nat × Nat)) (this other : Side)
    (r : Row) (lts ts : Int)
    (hsel : ∀ p ∈ other.state, project this.target.select p.1 = p.1)
    (hout : ¬(joinMatches this other r = [] ∧ this.target.outer = true)) :
    joinSide emit this other r lts ts =
      (joinMatches this other r).map
        (fun p => (combineRow emit other.ni r p.1, max lts p.2)) := by
  unfold joinSide
  rw [joinSide_find_matches this other r hsel]
  have hcond : ((joinMatches this other r).isEmpty && this.target.outer) = false := by
    by_cases hm : joinMatches this other r = []
    · have houter : this.target.outer = false := by
        cases ho : this.target.outer with
        | true => exact absurd ⟨hm, ho⟩ hout
        | false => rfl
      rw [hm, houter]
      rfl
    · have : (joinMatches this other r).isEmpty = false := by
        simpa [List.isEmpty_iff] using hm
      rw [this]
      rfl
  rw [hcond]
  simp only [Bool.false_eq_true, if_false]

/-- C1: for a record forwarded into the two-way join from either side (with
the opposite side not triggering the left-outer null-pad), the emitted
update contains exactly one combined row per opposite-side row matching on
the join fields, in state order, each carrying the input record's sign and
the `max` of the input's and the matching row's timestamps. -/
theorem joiner_forward_one_output_per_match
    (j : Joiner) (src : Nat) (s o : Side) (r : Row) (pos : Bool) (lts ts : Int)
    (hsides : j.sides src = (s, o))
    (hsel : ∀ p ∈ o.state, project s.target.select p.1 = p.1)
    (hout : ¬(joinMatches s o r = [] ∧ s.target.outer = true)) :
    j.forward [⟨r, pos, lts⟩] src ts =
      some ((joinMatches s o r).map
        (fun p => ⟨combineRow j.emit o.ni r p.1, pos, max lts p.2⟩)) := by
  unfold Joiner.forward
  simp only [hsides, List.flatMap_cons, List.flatMap_nil, List.append_nil]
  rw [joinSide_eq_map_matches j.emit s o r lts ts hsel hout]
  rw [List.map_map]
  rfl

/-- C1 witness: forwarding `[2,"b"]@1` from the left of the test join
produces exactly one row per matching right row. -/
theorem joiner_forward_one_output_per_match_witness :
    Joiner.forward testJoiner [⟨[DataType.int 2, DataType.text "b"], true, 1⟩] 0 100 =
      some ((joinMatches testJoiner.a testJoiner.b
          [DataType.int 2, DataType.text "b"]).map
        (fun p => ⟨combineRow testJoiner.emit testJoiner.b.ni
            [DataType.int 2, DataType.text "b"] p.1, true, max 1 p.2⟩)) :=
  joiner_forward_one_output_per_match testJoiner 0 testJoiner.a testJoiner.b
    [DataType.int 2, DataType.text "b"] true 1 100 (by rfl) (by decide) (by decide)

end Distributary

namespace Distributary

/-- C2: for a left join, a record arriving on the non-outer side while the
opposite (outer-joined) side holds no matching rows — in particular when it
is entirely empty — is forwarded as exactly one output row carrying the
input record's sign and timestamp, in which every emit column sourced from
the opposite side is `None` and every other emit column is taken from the
input record. -/
theorem joiner_left_outer_nullpads
    (j : Joiner) (src : Nat) (s o : Side) (r : Row) (pos : Bool) (lts ts : Int)
    (hsides : j.sides src = (s, o))
    (houter : s.target.outer = true)
    (hsel : ∀ p ∈ o.state, project s.target.select p.1 = p.1)
    (hnomatch : joinMatches s o r = []) :
    j.forward [⟨r, pos, lts⟩] src ts = some [⟨nullPad j.emit o.ni r, pos, lts⟩]
    ∧ ∀ k sc, j.emit.get? k = some sc →
        rowGet (nullPad j.emit o.ni r) k =
          (if sc.1 == o.ni then DataType.none else rowGet r sc.2) := by
  constructor
  · unfold Joiner.forward
    simp only [hsides, List.flatMap_cons, List.flatMap_nil, List.append_nil]
    have hjs : joinSide j.emit s o r lts ts = [(nullPad j.emit o.ni r, lts)] := by
      unfold joinSide
      rw [joinSide_find_matches s o r hsel, hnomatch, houter]
      rfl
    rw [hjs]
    rfl
  · intro k sc hk
    unfold nullPad rowGet
    rw [List.get?_map, hk]
    rfl

/-- C2 witness: forwarding `[3,"c"]@0` from the left of the left-join
fixture, whose right side is entirely empty, yields the single null-padded
row. -/
theorem joiner_left_outer_nullpads_witness :
    Joiner.forward testLeftJoiner [⟨[DataType.int 3, DataType.text "c"], true, 0⟩] 0 100 =
      some [⟨nullPad testLeftJoiner.emit testLeftJoiner.b.ni
          [DataType.int 3, DataType.text "c"], true, 0⟩]
    ∧ ∀ k sc, testLeftJoiner.emit.get? k = some sc →
        rowGet (nullPad testLeftJoiner.emit testLeftJoiner.b.ni
            [DataType.int 3, DataType.text "c"]) k =
          (if sc.1 == testLeftJoiner.b.ni then DataType.none
           else rowGet [DataType.int 3, DataType.text "c"] sc.2) :=
  joiner_left_outer_nullpads testLeftJoiner 0 testLeftJoiner.a testLeftJoiner.b
    [DataType.int 3, DataType.text "c"] true 0 100 (by rfl) (by rfl) (by decide) (by rfl)

/-- `find` with an all-pass query (no conditions) returns the state
unchanged when the selection mask is the identity on every stored row. -/
theorem find_no_conds (st : List (Row × Int)) (sel : List Bool)
    (hsel : ∀ p ∈ st, project sel p.1 = p.1) :
    find st (some ⟨sel, []⟩) = st := by
  induction st with
  | nil => rfl
  | cons x t ih =>
    have hx := hsel x (List.mem_cons_self x t)
    have ht : ∀ p ∈ t, project sel p.1 = p.1 :=
      fun p hp => hsel p (List.mem_cons_of_mem _ hp)
    rw [find_some, List.filterMap_cons]
    have hfx : Query.feed ⟨sel, []⟩ x.1 = some x.1 := by
      simp only [Query.feed, List.all_nil, if_true, hx]
    simp only [hfx, Option.map_some']
    rw [find_some] at ih
    rw [ih ht]

/-- C6: `Joiner::query` with a caller query coincides with the
specification's description of the point-query procedure: outer-loop the
side with the lowest node index, forward to it exactly the caller
conditions whose emit source is that side, join every outer row against the
other side as in delta forwarding, and feed each joined row through the
caller's full query.  (The hypothesis states that the outer side's stored
rows have the view's arity, so that the all-`true` selection is the
identity — which `prime` guarantees in the engine.) -/
theorem joiner_query_eq_spec (j : Joiner) (q : Query) (ts : Int)
    (hsel : ∀ p ∈ j.outerSides.1.state,
      project (List.replicate j.outerSides.1.cols true) p.1 = p.1) :
    j.query (some q) ts = j.querySpec q ts := by
  unfold Joiner.query Joiner.querySpec
  have hfold : (q.having.filterMap (fun c =>
      if ((j.emit.get? c.column).getD (0, 0)).1 == j.outerSides.1.ni then
        some ⟨((j.emit.get? c.column).getD (0, 0)).2, c.cmp⟩
      else Option.none)) = j.lparams j.outerSides.1.ni q := rfl
  rw [hfold]
  by_cases hemp : (j.lparams j.outerSides.1.ni q).isEmpty = true
  · have hlq : j.lq (some q) = Option.none := by
      simp only [Joiner.lq]
      rw [if_pos hemp]
    rw [hlq]
    have h0 : j.lparams j.outerSides.1.ni q = [] := by simpa using hemp
    rw [h0, find_no_conds j.outerSides.1.state _ hsel]
    rfl
  · have hlq : j.lq (some q) =
        some ⟨List.replicate j.outerSides.1.cols true,
              j.lparams j.outerSides.1.ni q⟩ := by
      simp only [Joiner.lq]
      rw [if_neg hemp]
    rw [hlq]

/-- C6 witness: querying the test join for first column equal to 2
coincides with the spec-side description of the procedure. -/
theorem joiner_query_eq_spec_witness :
    Joiner.query testJoiner
        (some ⟨[true, true, true],
               [⟨0, Comparison.equal (Value.const (DataType.int 2))⟩]⟩) 100 =
      Joiner.querySpec testJoiner
        ⟨[true, true, true],
         [⟨0, Comparison.equal (Value.const (DataType.int 2))⟩]⟩ 100 :=
  joiner_query_eq_spec testJoiner
    ⟨[true, true, true], [⟨0, Comparison.equal (Value.const (DataType.int 2))⟩]⟩
    100 (by decide)

end Distributary
